import Mathlib

/-!
Verification of the suffix-array text generator of the `irssi_log` repository.

The corpus is modelled as a `List Char`; a suffix array is a `List (List Char)`.
Randomness (Go's `math/rand`) is modelled by an explicit stream of draws,
a `List Nat` consumed from the front (an exhausted stream yields `0`);
`rand.Intn n` is the draw reduced modulo `n`, and `rand.Int` is a draw from
`[0, 2^63)`.  All definitions are transcribed from the Go source
(`argot.go` and the `suffixarray` package).
-/

namespace IrssiLog

/-- Byte comparison of two characters (the corpora are ASCII, where the
Unicode scalar value coincides with the byte value Go compares). -/
def charLt (a b : Char) : Bool := decide (a.toNat < b.toNat)

/-- Byte-wise lexicographic strict order on strings, the order used by
Go's `sort.Strings`. -/
def strLt : List Char → List Char → Bool
  | [], [] => false
  | [], _ :: _ => true
  | _ :: _, [] => false
  | a :: as, b :: bs => if a = b then strLt as bs else charLt a b

/-- One step of insertion into an ascending list, for `sortStrings`. -/
def insertStr (s : List Char) : List (List Char) → List (List Char)
  | [] => [s]
  | t :: ts => if strLt t s then t :: insertStr s ts else s :: t :: ts

/-- Ascending byte-wise sort of a list of strings; models `sort.Strings`
(the sorting algorithm itself is unspecified, only the ascending order
matters, and ties may land in any relative order). -/
def sortStrings : List (List Char) → List (List Char)
  | [] => []
  | s :: ss => insertStr s (sortStrings ss)

/-- The suffixes gathered by the loop of `suffixarray.Build`: for every
space character at offset `i` of the text, the suffix `text[i+1:]`. -/
def buildSuffixes : List Char → List (List Char)
  | [] => []
  | c :: rest => if c = ' ' then rest :: buildSuffixes rest else buildSuffixes rest

/-- `suffixarray.Build`: the suffix at offset 0 plus one suffix per space.
The Go function returns `([]string, error)` and its error is always `nil`,
modelled by the always-`none` second component. -/
def Build (text : List Char) : List (List Char) × Option String :=
  (text :: buildSuffixes text, Option.none)

/-- `suffixarray.Sort`: sorts the array; its error is always `nil`. -/
def SortGo (a : List (List Char)) : List (List Char) × Option String :=
  (sortStrings a, Option.none)

/-- The loop body of `getKWords` (argot.go lines 182-209), with the mutable
state `words`, `word`, `wordCount`, `skippedCount` made explicit.  The final
`return ""` of the Go function is the `[]` result on an exhausted text. -/
def getKWordsGo (skip count : Nat) :
    List Char → List Char → List Char → Nat → Nat → List Char
  | [], _, _, _, _ => []
  | c :: rest, words, word, wordCount, skippedCount =>
    if c ≠ ' ' then
      getKWordsGo skip count rest words (word ++ [c]) wordCount skippedCount
    else if word.length = 0 then
      getKWordsGo skip count rest words word wordCount skippedCount
    else if 0 < skip ∧ skippedCount < skip then
      getKWordsGo skip count rest words [] wordCount (skippedCount + 1)
    else
      let words2 := (if 0 < words.length then words ++ [' '] else words) ++ word
      if count ≤ wordCount + 1 then words2
      else getKWordsGo skip count rest words2 [] (wordCount + 1) skippedCount

/-- `getKWords` extracts `count` words from the text after discarding the
first `skip` words (argot.go lines 176-212). -/
def getKWords (text : List Char) (skip count : Nat) : List Char :=
  getKWordsGo skip count text [] [] 0 0

/-- The comparison closure passed to `sort.Search` (argot.go lines 129-141):
walk key and candidate jointly; `true` once the candidate's character is
greater or either string is exhausted, `false` on a smaller character. -/
def searchPred (key cand : List Char) : Bool :=
  match key, cand with
  | [], _ => true
  | _ :: _, [] => true
  | k :: ks, c :: cs => if c = k then searchPred ks cs else charLt k c

/-- Go's `sort.Search` binary-search loop, written with explicit fuel so
that it evaluates by kernel reduction; fuel `n` always suffices because the
interval `[i, j)` shrinks at every step. -/
def sortSearchAux (f : Nat → Bool) : Nat → Nat → Nat → Nat
  | 0, i, _ => i
  | fuel + 1, i, j =>
    if i < j then
      let h := (i + j) / 2
      if f h then sortSearchAux f fuel i h else sortSearchAux f fuel (h + 1) j
    else i

/-- Go's `sort.Search n f`: the smallest index in `[0, n]` reached by
binary search on `f`. -/
def sortSearch (n : Nat) (f : Nat → Bool) : Nat := sortSearchAux f n 0 n

/-- The locator: `sort.Search` over the suffix array with the key
`phrase + " "` (argot.go lines 126-141). -/
def phraseIndex (a : List (List Char)) (phrase : List Char) : Nat :=
  sortSearch a.length (fun i => searchPred (phrase ++ [' ']) (a.getD i []))

/-- The reservoir guard of argot.go line 157: `rand.Int()%(j+1) == 0`. -/
def reservoirGuard (r j : Nat) : Bool := r % (j + 1) == 0

/-- The extension-sampler loop of argot.go lines 155-160, walking the
suffixes from the lower bound (the list argument stands for `a.drop L`, and
`j` is the loop counter, so the element under scrutiny is `a[j+L]`).  One
random draw is consumed per iteration; the scan stops at the first suffix
that does not carry `key` as a prefix (or at the end of the array). -/
def reservoirList (key : List Char) :
    List (List Char) → Nat → List Char → List Nat → List Char × List Nat
  | [], _, cur, rs => (cur, rs)
  | s :: rest, j, cur, rs =>
    if key.isPrefixOf s then
      let cur2 := if reservoirGuard (rs.headD 0) j then s else cur
      reservoirList key rest (j + 1) cur2 rs.tail
    else (cur, rs)

/-- `getRandomPhrase` (argot.go lines 170-173): `k` words of the suffix at
the random index `rand.Intn(len)`, modelled as `r % len`. -/
def getRandomPhrase (a : List (List Char)) (k : Nat) (r : Nat) : List Char :=
  getKWords (a.getD (r % a.length) []) 0 k

/-- The loop of `generateTextFromSuffixArray` (argot.go lines 118-164),
one recursive step per iteration; the accumulated `text` is the
concatenation of the units produced by the steps. -/
def genLoop (a : List (List Char)) (k : Nat) : Nat → List Char → List Nat → List Char
  | 0, _, _ => []
  | n + 1, phrase, rs =>
    if phrase = [] then
      let p := getRandomPhrase a k (rs.headD 0)
      p ++ ' ' :: genLoop a k n p rs.tail
    else
      let L := phraseIndex a phrase
      if L = a.length then
        let p := getRandomPhrase a k (rs.headD 0)
        p ++ ' ' :: genLoop a k n p rs.tail
      else
        let res := reservoirList (phrase ++ [' ']) (a.drop L) 0 [] rs
        let p := getKWords res.1 k k
        p ++ ' ' :: genLoop a k n p res.2

/-- `generateTextFromSuffixArray` (argot.go lines 113-167).  The Go function
returns `(string, error)` and its only return statement is
`return text, nil`; the error component is therefore always `none`. -/
def generateTextFromSuffixArray (a : List (List Char)) (len k : Nat)
    (rs : List Nat) : List Char × Option String :=
  (genLoop a k len [] rs, Option.none)

/-- One continuation step of the generator (the `phrase != ""`, found
branch of the loop): locate the lower bound of `phrase + " "`, sample one
extension from the matching run, extract words `[k, 2k)` from it. -/
def continuationStep (a : List (List Char)) (phrase : List Char) (k : Nat)
    (rs : List Nat) : List Char :=
  getKWords (reservoirList (phrase ++ [' '])
    (a.drop (phraseIndex a phrase)) 0 [] rs).1 k k

/-- The length of the matching run that the sampler scans: the number of
consecutive suffixes from the lower bound onward that carry `phrase + " "`
as a prefix. -/
def runLen (a : List (List Char)) (phrase : List Char) : Nat :=
  ((a.drop (phraseIndex a phrase)).takeWhile
    (fun s => (phrase ++ [' ']).isPrefixOf s)).length

/-- Join a list of words with single spaces (used to state what a
well-formed phrase is). -/
def joinWords : List (List Char) → List Char
  | [] => []
  | [w] => w
  | w :: ws => w ++ ' ' :: joinWords ws

/-- The offsets of the space characters of a text. -/
def spacePositions : List Char → List Nat
  | [] => []
  | c :: rest =>
    if c = ' ' then 0 :: (spacePositions rest).map (· + 1)
    else (spacePositions rest).map (· + 1)

/-- The size of the range of Go's `rand.Int` on a 64-bit platform: draws
are uniform over `[0, 2^63)`. -/
def randIntBound : Nat := 2 ^ 63

/-- How many draws of a range `[0, range)` satisfy the reservoir guard for
candidate number `j`. -/
def guardCount (j range : Nat) : Nat :=
  (List.range range).countP (fun r => reservoirGuard r j)

/-- The end-to-end demonstration corpus of the specification. -/
def demoCorpus : List Char := ("the cat sat on the mat the cat ran").toList

/-- The sorted suffix array of the demonstration corpus. -/
def demoArray : List (List Char) := (SortGo (Build demoCorpus).1).1


theorem charToNat_inj {a b : Char} (h : a.toNat = b.toNat) : a = b := by
  cases a; cases b
  simp only [Char.toNat] at h
  congr 1
  exact UInt32.ext h

theorem charLt_of_ne_not_lt {a b : Char} (hne : a ≠ b) (h : charLt a b = false) :
    charLt b a = true := by
  simp only [charLt, decide_eq_false_iff_not, decide_eq_true_eq, Nat.not_lt] at h ⊢
  rcases Nat.lt_or_ge b.toNat a.toNat with h2 | h2
  · exact h2
  · exact absurd (charToNat_inj (Nat.le_antisymm h2 h)) hne

theorem charLt_trans {a b c : Char} (h1 : charLt a b = true) (h2 : charLt b c = true) :
    charLt a c = true := by
  simp only [charLt, decide_eq_true_eq] at h1 h2 ⊢
  exact Nat.lt_trans h1 h2

theorem charLt_asymm {a b : Char} (h : charLt a b = true) : charLt b a = false := by
  simp only [charLt, decide_eq_true_eq, decide_eq_false_iff_not, Nat.not_lt] at h ⊢
  exact Nat.le_of_lt h

theorem strLt_trans : ∀ {a b c : List Char},
    strLt a b = true → strLt b c = true → strLt a c = true
  | [], [], _, h1, _ => by simp [strLt] at h1
  | [], _ :: _, [], _, h2 => by simp [strLt] at h2
  | [], _ :: _, _ :: _, _, _ => rfl
  | _ :: _, [], _, h1, _ => by simp [strLt] at h1
  | _ :: _, _ :: _, [], _, h2 => by simp [strLt] at h2
  | x :: xs, y :: ys, z :: zs, h1, h2 => by
    by_cases hxy : x = y
    · subst hxy
      rw [strLt, if_pos rfl] at h1
      by_cases hyz : x = z
      · subst hyz
        rw [strLt, if_pos rfl] at h2 ⊢
        exact strLt_trans h1 h2
      · rw [strLt, if_neg hyz] at h2 ⊢
        exact h2
    · rw [strLt, if_neg hxy] at h1
      by_cases hyz : y = z
      · subst hyz
        rw [strLt, if_neg hxy]
        exact h1
      · rw [strLt, if_neg hyz] at h2
        have hlt := charLt_trans h1 h2
        have hne : x ≠ z := fun he => by
          subst he
          rw [charLt_asymm h2] at h1
          exact Bool.false_ne_true h1
        rw [strLt, if_neg hne]
        exact hlt

theorem strLt_total : ∀ {a b : List Char},
    strLt a b = false → a = b ∨ strLt b a = true
  | [], [], _ => Or.inl rfl
  | [], _ :: _, h => by simp [strLt] at h
  | _ :: _, [], _ => Or.inr rfl
  | x :: xs, y :: ys, h => by
    by_cases hxy : x = y
    · subst hxy
      rw [strLt, if_pos rfl] at h
      rcases strLt_total h with h2 | h2
      · exact Or.inl (by rw [h2])
      · refine Or.inr ?_
        rw [strLt, if_pos rfl]
        exact h2
    · rw [strLt, if_neg hxy] at h
      refine Or.inr ?_
      rw [strLt, if_neg (Ne.symm hxy)]
      exact charLt_of_ne_not_lt hxy h

theorem strLt_of_le_of_lt {x y k : List Char}
    (h1 : strLt y x = false) (h2 : strLt y k = true) : strLt x k = true := by
  rcases strLt_total h1 with h | h
  · rwa [← h]
  · exact strLt_trans h h2

theorem strLt_of_searchPred_false : ∀ {key c : List Char},
    searchPred key c = false → strLt c key = true
  | [], _, h => by simp [searchPred] at h
  | _ :: _, [], h => by simp [searchPred] at h
  | k :: ks, c1 :: cs, h => by
    by_cases hck : c1 = k
    · subst hck
      simp only [searchPred, if_pos rfl] at h
      rw [strLt, if_pos rfl]
      exact strLt_of_searchPred_false h
    · simp only [searchPred, if_neg hck] at h
      rw [strLt, if_neg hck]
      exact charLt_of_ne_not_lt (Ne.symm hck) h

theorem sortSearchAux_inv (f : Nat → Bool) :
    ∀ (fuel i j : Nat), i ≤ j → j - i ≤ fuel →
      i ≤ sortSearchAux f fuel i j ∧ sortSearchAux f fuel i j ≤ j ∧
        (sortSearchAux f fuel i j = i ∨ f (sortSearchAux f fuel i j - 1) = false)
  | 0, i, j, hij, hf => by
    have : i = j := by omega
    subst this
    exact ⟨Nat.le_refl i, Nat.le_refl i, Or.inl rfl⟩
  | fuel + 1, i, j, hij, hf => by
    simp only [sortSearchAux]
    by_cases hlt : i < j
    · rw [if_pos hlt]
      by_cases hfm : f ((i + j) / 2) = true
      · rw [if_pos hfm]
        have := sortSearchAux_inv f fuel i ((i + j) / 2) (by omega) (by omega)
        exact ⟨this.1, Nat.le_trans this.2.1 (by omega), this.2.2⟩
      · rw [if_neg hfm]
        have := sortSearchAux_inv f fuel ((i + j) / 2 + 1) j (by omega) (by omega)
        refine ⟨by omega, this.2.1, ?_⟩
        rcases this.2.2 with h | h
        · right
          rw [h]
          simpa using Bool.of_not_eq_true hfm
        · exact Or.inr h
    · rw [if_neg hlt]
      exact ⟨Nat.le_refl i, hij, Or.inl rfl⟩

theorem sortSearch_le (n : Nat) (f : Nat → Bool) : sortSearch n f ≤ n :=
  (sortSearchAux_inv f n 0 n (Nat.zero_le n) (by omega)).2.1

theorem sortSearch_pred (n : Nat) (f : Nat → Bool) :
    sortSearch n f = 0 ∨ f (sortSearch n f - 1) = false :=
  (sortSearchAux_inv f n 0 n (Nat.zero_le n) (by omega)).2.2

theorem takeWhile_getD {α : Type} (q : α → Bool) :
    ∀ (l : List α) (i : Nat) (d : α), i < (l.takeWhile q).length →
      (l.takeWhile q).getD i d = l.getD i d ∧ q (l.getD i d) = true
  | [], i, d, h => by simp [List.takeWhile] at h
  | c :: r, i, d, h => by
    by_cases hq : q c = true
    · rw [List.takeWhile_cons, if_pos hq] at h ⊢
      cases i with
      | zero => exact ⟨rfl, hq⟩
      | succ i =>
        simp only [List.getD_cons_succ, List.length_cons] at h ⊢
        exact takeWhile_getD q r i d (by omega)
    · rw [List.takeWhile_cons, if_neg hq] at h
      simp at h

theorem takeWhile_boundary {α : Type} (q : α → Bool) :
    ∀ (l : List α) (d : α), (l.takeWhile q).length < l.length →
      q (l.getD (l.takeWhile q).length d) = false
  | [], d, h => by simp at h
  | c :: r, d, h => by
    by_cases hq : q c = true
    · rw [List.takeWhile_cons, if_pos hq] at h ⊢
      simp only [List.length_cons, List.getD_cons_succ] at h ⊢
      exact takeWhile_boundary q r d (by omega)
    · rw [List.takeWhile_cons, if_neg hq] at h ⊢
      simp only [List.length_nil, List.getD_cons_zero]
      exact Bool.of_not_eq_true hq

theorem takeWhile_len_le {α : Type} (q : α → Bool) :
    ∀ (l : List α), (l.takeWhile q).length ≤ l.length
  | [] => Nat.le_refl 0
  | c :: r => by
    rw [List.takeWhile_cons]
    by_cases hq : q c = true
    · rw [if_pos hq]
      simpa using takeWhile_len_le q r
    · rw [if_neg hq]
      simp

theorem getD_drop {α : Type} :
    ∀ (a : List α) (L m : Nat) (d : α), (a.drop L).getD m d = a.getD (L + m) d
  | _, 0, _, _ => by simp
  | [], _ + 1, _, _ => by simp
  | c :: r, L + 1, m, d => by
    rw [List.drop_succ_cons, getD_drop r L m d]
    simp [Nat.succ_add]

theorem pairwise_getD {α : Type} {R : α → α → Prop} {l : List α} (h : l.Pairwise R)
    {i j : Nat} (hij : i < j) (hj : j < l.length) (d : α) :
    R (l.getD i d) (l.getD j d) := by
  have hi : i < l.length := Nat.lt_trans hij hj
  rw [List.getD_eq_getElem l d hi, List.getD_eq_getElem l d hj]
  exact List.pairwise_iff_getElem.mp h i j hi hj hij



theorem key_not_prefixOf_nil (p : List Char) : (p ++ [' ']).isPrefixOf [] = false := by
  cases p <;> rfl

theorem prefixOf_cons {k x1 : Char} {ks xs : List Char}
    (h : (k :: ks).isPrefixOf (x1 :: xs) = true) : k = x1 ∧ ks.isPrefixOf xs = true := by
  simpa [List.isPrefixOf, Bool.and_eq_true, beq_iff_eq] using h

theorem prefix_between : ∀ {key x y z : List Char},
    key.isPrefixOf x = true → key.isPrefixOf z = true →
    strLt y x = false → strLt z y = false → key.isPrefixOf y = true
  | [], _, y, _, _, _, _, _ => by cases y <;> rfl
  | _ :: _, [], _, _, hx, _, _, _ => by simp [List.isPrefixOf] at hx
  | _ :: _, _ :: _, _, [], _, hz, _, _ => by simp [List.isPrefixOf] at hz
  | k :: ks, x1 :: xs, y, z1 :: zs, hx, hz, hyx, hzy => by
    obtain ⟨hk1, hx'⟩ := prefixOf_cons hx
    obtain ⟨hk2, hz'⟩ := prefixOf_cons hz
    subst hk1
    subst hk2
    match y with
    | [] => simp [strLt] at hyx
    | y1 :: ys =>
      by_cases hy1 : y1 = k
      · subst hy1
        rw [strLt, if_pos rfl] at hyx hzy
        have := prefix_between hx' hz' hyx hzy
        simpa [List.isPrefixOf]
      · rw [strLt, if_neg hy1] at hyx
        rw [strLt, if_neg (Ne.symm hy1)] at hzy
        have := charLt_of_ne_not_lt hy1 hyx
        rw [this] at hzy
        exact absurd hzy (by simp)

theorem reservoirList_sel (key : List Char) :
    ∀ (l : List (List Char)) (j : Nat) (cur : List Char) (rs : List Nat),
      (reservoirList key l j cur rs).1 = cur ∨
        key.isPrefixOf (reservoirList key l j cur rs).1 = true
  | [], _, _, _ => Or.inl rfl
  | s :: rest, j, cur, rs => by
    by_cases hp : key.isPrefixOf s = true
    · simp only [reservoirList, if_pos hp]
      rcases reservoirList_sel key rest (j + 1)
          (if reservoirGuard (rs.headD 0) j then s else cur) rs.tail with h | h
      · rw [h]
        by_cases hg : reservoirGuard (rs.headD 0) j = true
        · rw [if_pos hg]
          exact Or.inr hp
        · rw [if_neg hg]
          exact Or.inl rfl
      · exact Or.inr h
    · have hstep : reservoirList key (s :: rest) j cur rs = (cur, rs) := by
        simp only [reservoirList, if_neg hp]
      rw [hstep]
      exact Or.inl rfl

/-- C3 (amended).  Lower-bound correctness of the Phrase Locator: for every
byte-wise sorted suffix array `a` and phrase `p`, the locator's result `L`
satisfies: every index below `L` holds a suffix comparing byte-wise less
than `p + " "`; the indices of the matching run beginning at `L` hold
suffixes carrying `p + " "` as a prefix; and — provided the run is
non-empty — every index after the run holds a suffix without that prefix.
(The original, unconditional third part is refuted by
`c3_counterexample`.) -/
theorem c3_locator_amended (a : List (List Char)) (p : List Char)
    (hs : a.Pairwise (fun x y => strLt y x = false)) :
    (∀ i, i < phraseIndex a p → strLt (a.getD i []) (p ++ [' ']) = true) ∧
    (∀ i, phraseIndex a p ≤ i → i < phraseIndex a p + runLen a p →
      (p ++ [' ']).isPrefixOf (a.getD i []) = true) ∧
    (0 < runLen a p → ∀ i, phraseIndex a p + runLen a p ≤ i → i < a.length →
      (p ++ [' ']).isPrefixOf (a.getD i []) = false) := by
  have hL_le : phraseIndex a p ≤ a.length :=
    sortSearch_le a.length (fun i => searchPred (p ++ [' ']) (a.getD i []))
  have hdrop : ∀ m : Nat,
      ((a.drop (phraseIndex a p)).getD m []) = a.getD (phraseIndex a p + m) [] :=
    fun m => getD_drop a (phraseIndex a p) m []
  refine ⟨?_, ?_, ?_⟩
  · intro i hi
    rcases sortSearch_pred a.length (fun i => searchPred (p ++ [' ']) (a.getD i []))
        with h0 | hfalse
    · have : phraseIndex a p = 0 := h0
      omega
    · have hlt : strLt (a.getD (phraseIndex a p - 1) []) (p ++ [' ']) = true :=
        strLt_of_searchPred_false hfalse
      rcases Nat.lt_or_ge i (phraseIndex a p - 1) with hlt2 | hge
      · have hle := pairwise_getD hs hlt2 (by omega) ([] : List Char)
        exact strLt_of_le_of_lt hle hlt
      · have : i = phraseIndex a p - 1 := by omega
        rwa [this]
  · intro i h1 h2
    have hm : i - phraseIndex a p < runLen a p := by omega
    have := (takeWhile_getD (fun s => (p ++ [' ']).isPrefixOf s)
      (a.drop (phraseIndex a p)) (i - phraseIndex a p) [] hm).2
    rwa [hdrop, Nat.add_sub_cancel' h1] at this
  · intro hpos i h1 h2
    have hlen : runLen a p < (a.drop (phraseIndex a p)).length := by
      rw [List.length_drop]
      omega
    have hbound := takeWhile_boundary (fun s => (p ++ [' ']).isPrefixOf s)
      (a.drop (phraseIndex a p)) [] hlen
    rw [hdrop] at hbound
    have hbound2 : (p ++ [' ']).isPrefixOf
        (a.getD (phraseIndex a p + runLen a p) []) = false := hbound
    rcases Nat.eq_or_lt_of_le h1 with he | hlt
    · rw [← he]
      exact hbound2
    · have hx : (p ++ [' ']).isPrefixOf (a.getD (phraseIndex a p) []) = true := by
        have := (takeWhile_getD (fun s => (p ++ [' ']).isPrefixOf s)
          (a.drop (phraseIndex a p)) 0 [] hpos).2
        rwa [hdrop, Nat.add_zero] at this
      by_contra hcon
      have hz : (p ++ [' ']).isPrefixOf (a.getD i []) = true := by
        simpa using hcon
      have hyx : strLt (a.getD (phraseIndex a p + runLen a p) [])
          (a.getD (phraseIndex a p) []) = false :=
        pairwise_getD hs (by omega) (by omega) ([] : List Char)
      have hzy : strLt (a.getD i [])
          (a.getD (phraseIndex a p + runLen a p) []) = false :=
        pairwise_getD hs hlt h2 ([] : List Char)
      have := prefix_between hx hz hyx hzy
      rw [this] at hbound2
      exact absurd hbound2 (by simp)

/-- C3 counterexample.  On the sorted suffix array of the corpus
`"the cat x the"` and the phrase `"the cat"`, the locator returns `L = 1`
(in range), the matching run at `L` is empty — the suffix `"the"` there is
a proper prefix of the key `"the cat "` — yet index `2`, which lies after
that run, holds a suffix that does have `"the cat "` as a prefix.  This
refutes the claim's unconditional third part. -/
theorem c3_counterexample :
    ((SortGo (Build ("the cat x the").toList).1).1).Pairwise
        (fun x y => strLt y x = false) ∧
    phraseIndex ((SortGo (Build ("the cat x the").toList).1).1)
        (("the cat").toList) = 1 ∧
    runLen ((SortGo (Build ("the cat x the").toList).1).1)
        (("the cat").toList) = 0 ∧
    1 + 0 ≤ 2 ∧ 2 < ((SortGo (Build ("the cat x the").toList).1).1).length ∧
    (("the cat").toList ++ [' ']).isPrefixOf
      (((SortGo (Build ("the cat x the").toList).1).1).getD 2 []) = true := by
  decide

/-- Witness for C3 (amended): the sorted demonstration array satisfies the
sortedness hypothesis, and the amended locator theorem applies to it. -/
theorem c3_locator_amended_witness :
    demoArray.Pairwise (fun x y => strLt y x = false) ∧
    ((∀ i, i < phraseIndex demoArray (("the cat").toList) →
      strLt (demoArray.getD i []) (("the cat").toList ++ [' ']) = true) ∧
    (∀ i, phraseIndex demoArray (("the cat").toList) ≤ i →
        i < phraseIndex demoArray (("the cat").toList) +
          runLen demoArray (("the cat").toList) →
      (("the cat").toList ++ [' ']).isPrefixOf (demoArray.getD i []) = true) ∧
    (0 < runLen demoArray (("the cat").toList) →
      ∀ i, phraseIndex demoArray (("the cat").toList) +
          runLen demoArray (("the cat").toList) ≤ i → i < demoArray.length →
      (("the cat").toList ++ [' ']).isPrefixOf (demoArray.getD i []) = false)) :=
  ⟨by decide, c3_locator_amended demoArray (("the cat").toList) (by decide)⟩



theorem buildSuffixes_length : ∀ t : List Char,
    (buildSuffixes t).length = t.count ' '
  | [] => rfl
  | c :: rest => by
    by_cases hc : c = ' '
    · subst hc
      simp [buildSuffixes, buildSuffixes_length rest, List.count_cons]
    · simp [buildSuffixes, hc, buildSuffixes_length rest, List.count_cons]

theorem map_drop_shift (rest : List Char) (c : Char) (ps : List Nat) :
    (ps.map (fun i => i + 1)).map (fun i => (c :: rest).drop (i + 1)) =
      ps.map (fun i => rest.drop (i + 1)) := by
  rw [List.map_map]
  apply List.map_congr_left
  intro i _
  simp [Function.comp, List.drop_succ_cons]

theorem buildSuffixes_eq : ∀ t : List Char,
    buildSuffixes t = (spacePositions t).map (fun i => t.drop (i + 1))
  | [] => rfl
  | c :: rest => by
    by_cases hc : c = ' '
    · simp only [buildSuffixes, spacePositions]
      rw [if_pos hc, if_pos hc]
      simp only [List.map_cons]
      rw [buildSuffixes_eq rest, map_drop_shift]
      rfl
    · simp only [buildSuffixes, spacePositions]
      rw [if_neg hc, if_neg hc, buildSuffixes_eq rest, map_drop_shift]

theorem spacePositions_mem : ∀ (t : List Char) (i : Nat),
    i ∈ spacePositions t ↔ t[i]? = some ' '
  | [], i => by simp [spacePositions]
  | c :: rest, i => by
    cases i with
    | zero =>
      by_cases hc : c = ' ' <;>
        simp [spacePositions, hc, List.mem_map]
    | succ i =>
      have hrec := spacePositions_mem rest i
      by_cases hc : c = ' ' <;>
        simp [spacePositions, hc, List.mem_map, hrec]

/-- C7 (confirmed).  Builder size and contents: for every corpus with at
least one space, `Build` returns `count(' ') + 1` suffixes — the whole text
plus, for every space at offset `i`, the suffix starting at offset `i+1` —
and every entry is a genuine (untruncated) suffix of the corpus. -/
theorem c7_build_contents (t : List Char) (h : 0 < t.count ' ') :
    (Build t).1.length = t.count ' ' + 1 ∧
    (Build t).1 = t :: (spacePositions t).map (fun i => t.drop (i + 1)) ∧
    (∀ i, i ∈ spacePositions t ↔ t[i]? = some ' ') ∧
    (∀ s ∈ (Build t).1, s.IsSuffix t) := by
  refine ⟨?_, ?_, spacePositions_mem t, ?_⟩
  · simp [Build, buildSuffixes_length]
  · simp [Build, buildSuffixes_eq]
  · intro s hs
    simp only [Build] at hs
    rcases List.mem_cons.mp hs with h | h
    · rw [h]
    · rw [buildSuffixes_eq] at h
      obtain ⟨i, _, hi⟩ := List.mem_map.mp h
      rw [← hi]
      exact List.drop_suffix (i + 1) t

/-- Witness for C7 at the two-word corpus `"a b"`. -/
theorem c7_build_contents_witness :
    0 < (("a b").toList).count ' ' ∧
    ((Build (("a b").toList)).1.length = (("a b").toList).count ' ' + 1 ∧
    (Build (("a b").toList)).1 =
      ("a b").toList :: (spacePositions (("a b").toList)).map
        (fun i => (("a b").toList).drop (i + 1)) ∧
    (∀ i, i ∈ spacePositions (("a b").toList) ↔ (("a b").toList)[i]? = some ' ') ∧
    (∀ s ∈ (Build (("a b").toList)).1, s.IsSuffix (("a b").toList))) :=
  ⟨by decide, c7_build_contents (("a b").toList) (by decide)⟩

/-- C2 counterexample.  The spec's second slicer vector fails: on the text
`"a b"` with skip 0, count 3 the slicer returns the empty string, not the
short unpadded result `"a b"` — the text runs out before 3 words are
collected (the final word has no trailing space), and the partial result
is discarded. -/
theorem c2_counterexample :
    ¬ (getKWords (("a b").toList) 0 3 = ("a b").toList) := by decide

/-- C2 (amended).  The first spec vector holds:
`getKWords("a b c d e", 2, 2) = "c d"`; the second returns the empty
string: `getKWords("a b", 0, 3) = ""` (all-or-nothing, no short result). -/
theorem c2_slicer_amended :
    getKWords (("a b c d e").toList) 2 2 = ("c d").toList ∧
    getKWords (("a b").toList) 0 3 = [] := by decide

theorem reservoirGuard_iff (r j : Nat) : reservoirGuard r j = true ↔ (j + 1) ∣ r := by
  simp [reservoirGuard, Nat.dvd_iff_mod_eq_zero]

theorem guardCount_formula (j : Nat) : ∀ R : Nat, guardCount j R = (R + j) / (j + 1) := by
  intro R
  induction R with
  | zero => simp [guardCount, Nat.div_eq_of_lt (Nat.lt_succ_self j)]
  | succ R ih =>
    have hstep : guardCount j (R + 1) =
        guardCount j R + (if reservoirGuard R j = true then 1 else 0) := by
      unfold guardCount
      rw [List.range_succ, List.countP_append]
      congr 1
      rw [List.countP_cons, List.countP_nil]
      simp
    rw [hstep, ih, show R + 1 + j = (R + j) + 1 by omega, Nat.succ_div]
    congr 1
    have h2 : ((j + 1) ∣ (R + j + 1)) ↔ ((j + 1) ∣ R) := by
      rw [show R + j + 1 = R + (j + 1) by omega]
      exact Nat.dvd_add_self_right
    by_cases hg : (j + 1) ∣ R
    · rw [if_pos ((reservoirGuard_iff R j).mpr hg), if_pos (h2.mpr hg)]
    · rw [if_neg fun hc => hg ((reservoirGuard_iff R j).mp hc),
        if_neg fun hc => hg (h2.mp hc)]

/-- C8 counterexample.  The guard `rand.Int() % (j+1) == 0` does not hold
for exactly a `1/(j+1)` fraction of the draw range: for `j = 2` the range
`[0, 2^63)` contains `(2^63 + 1)/3` multiples of 3, and three times that
count is `2^63 + 1`, not `2^63`. -/
theorem c8_counterexample :
    ¬ (guardCount 2 randIntBound * (2 + 1) = randIntBound) := by
  rw [guardCount_formula]
  norm_num [randIntBound]

/-- C8 (amended).  The exact census of the reservoir guard: among the draws
`[0, R)` exactly `⌈R/(j+1)⌉ = (R+j)/(j+1)` satisfy `r % (j+1) == 0`; this
is exactly a `1/(j+1)` fraction precisely when `j+1` divides the range
(whence with the true range `2^63` exactness fails for e.g. `j = 2`).  In
particular `j = 0` always passes: a run of size 1 is always selected. -/
theorem c8_reservoir_guard_amended (j R : Nat) :
    guardCount j R = (R + j) / (j + 1) ∧
    (∀ r, reservoirGuard r 0 = true) ∧
    ((j + 1) ∣ R → guardCount j R * (j + 1) = R) ∧
    (∀ (key s cur : List Char) (rs : List Nat),
      key.isPrefixOf s = true → (reservoirList key [s] 0 cur rs).1 = s) := by
  refine ⟨guardCount_formula j R, ?_, ?_, ?_⟩
  · intro r
    simp [reservoirGuard, Nat.mod_one]
  · intro hdvd
    obtain ⟨q, hq⟩ := hdvd
    subst hq
    rw [guardCount_formula, Nat.mul_add_div (by omega : 0 < j + 1),
      Nat.div_eq_of_lt (Nat.lt_succ_self j)]
    exact (Nat.mul_comm _ _)
  · intro key s cur rs hp
    simp only [reservoirList, if_pos hp]
    have : reservoirGuard (rs.headD 0) 0 = true := by
      simp [reservoirGuard, Nat.mod_one]
    rw [this]
    rfl

/-- Witness for C8 (amended) at `j = 1`, `R = 4`, and a singleton run. -/
theorem c8_reservoir_guard_amended_witness :
    (2 ∣ 4) ∧ guardCount 1 4 * (1 + 1) = 4 ∧
    (reservoirList ((" ").toList) [[' ', 'x']] 0 [] []).1 = [' ', 'x'] :=
  ⟨by decide, (c8_reservoir_guard_amended 1 4).2.2.1 (by decide),
    (c8_reservoir_guard_amended 1 4).2.2.2 ((" ").toList) [' ', 'x'] [] [] (by decide)⟩



theorem joinWords_cons_cons (w v : List Char) (rest : List (List Char)) :
    joinWords (w :: v :: rest) = w ++ ' ' :: joinWords (v :: rest) := rfl

theorem joinWords_ne_nil : ∀ {ws : List (List Char)}, ws ≠ [] →
    (∀ w ∈ ws, w ≠ []) → joinWords ws ≠ []
  | [], h, _ => absurd rfl h
  | [w], _, hw => by
    simpa [joinWords] using hw w (List.mem_singleton_self w)
  | w :: v :: rest, _, hw => by
    rw [joinWords_cons_cons]
    intro hcon
    rcases List.append_eq_nil.mp hcon with ⟨_, h2⟩
    exact List.cons_ne_nil _ _ h2

theorem joinWords_append_single : ∀ (ws : List (List Char)) (w : List Char), ws ≠ [] →
    joinWords (ws ++ [w]) = joinWords ws ++ ' ' :: w
  | [], _, h => absurd rfl h
  | [_], _, _ => rfl
  | v :: u :: rest, w, _ => by
    have ih := joinWords_append_single (u :: rest) w (List.cons_ne_nil u rest)
    show joinWords (v :: u :: (rest ++ [w])) =
      (v ++ ' ' :: joinWords (u :: rest)) ++ ' ' :: w
    rw [joinWords_cons_cons,
      show joinWords (u :: (rest ++ [w])) = joinWords (u :: rest) ++ ' ' :: w from ih]
    simp

theorem getKWordsGo_inv (skip count : Nat) :
    ∀ (text words word : List Char) (wc sc : Nat),
      wc < count →
      (words = [] ∧ wc = 0 ∨
        ∃ ws : List (List Char), ws ≠ [] ∧ ws.length = wc ∧
          (∀ w ∈ ws, w ≠ [] ∧ ∀ ch ∈ w, ch ≠ ' ') ∧ words = joinWords ws) →
      (∀ ch ∈ word, ch ≠ ' ') →
      (getKWordsGo skip count text words word wc sc = [] ∨
        ∃ ws : List (List Char), ws.length = count ∧
          (∀ w ∈ ws, w ≠ [] ∧ ∀ ch ∈ w, ch ≠ ' ') ∧
          getKWordsGo skip count text words word wc sc = joinWords ws)
  | [], _, _, _, _, _, _, _ => Or.inl rfl
  | c :: rest, words, word, wc, sc, hwc, hwords, hword => by
    simp only [getKWordsGo]
    by_cases hc : c ≠ ' '
    · rw [if_pos hc]
      refine getKWordsGo_inv skip count rest words (word ++ [c]) wc sc hwc hwords ?_
      intro ch hch
      rcases List.mem_append.mp hch with h | h
      · exact hword ch h
      · rw [List.mem_singleton.mp h]
        exact hc
    · rw [if_neg hc]
      by_cases hw0 : word.length = 0
      · rw [if_pos hw0]
        exact getKWordsGo_inv skip count rest words word wc sc hwc hwords hword
      · rw [if_neg hw0]
        by_cases hskip : 0 < skip ∧ sc < skip
        · rw [if_pos hskip]
          exact getKWordsGo_inv skip count rest words [] wc (sc + 1) hwc hwords
            (by simp)
        · rw [if_neg hskip]
          have hwne : word ≠ [] := by
            intro hcon
            rw [hcon] at hw0
            exact hw0 rfl
          rcases hwords with ⟨hw, hwc0⟩ | ⟨ws, hne, hlen, hprop, heq⟩
          · subst hw
            subst hwc0
            simp only [List.length_nil, Nat.lt_irrefl, if_false, List.nil_append,
              reduceIte]
            by_cases hret : count ≤ 0 + 1
            · rw [if_pos hret]
              refine Or.inr ⟨[word], ?_, ?_, rfl⟩
              · simpa using by omega
              · intro w hwmem
                rw [List.mem_singleton.mp hwmem]
                exact ⟨hwne, hword⟩
            · rw [if_neg hret]
              refine getKWordsGo_inv skip count rest word [] (0 + 1) sc
                (by omega) ?_ (by simp)
              refine Or.inr ⟨[word], by simp, by simp, ?_, rfl⟩
              intro w hwmem
              rw [List.mem_singleton.mp hwmem]
              exact ⟨hwne, hword⟩
          · subst heq
            have hjne : joinWords ws ≠ [] :=
              joinWords_ne_nil hne (fun w hw => (hprop w hw).1)
            have hjpos : 0 < (joinWords ws).length := List.length_pos.mpr hjne
            rw [if_pos hjpos]
            have hW : (joinWords ws ++ [' ']) ++ word = joinWords (ws ++ [word]) := by
              rw [joinWords_append_single ws word hne, List.append_assoc]
              rfl
            rw [hW]
            have hprop2 : ∀ w ∈ ws ++ [word], w ≠ [] ∧ ∀ ch ∈ w, ch ≠ ' ' := by
              intro w hwmem
              rcases List.mem_append.mp hwmem with h | h
              · exact hprop w h
              · rw [List.mem_singleton.mp h]
                exact ⟨hwne, hword⟩
            by_cases hret : count ≤ wc + 1
            · rw [if_pos hret]
              refine Or.inr ⟨ws ++ [word], ?_, hprop2, rfl⟩
              rw [List.length_append, hlen]
              simpa using by omega
            · rw [if_neg hret]
              refine getKWordsGo_inv skip count rest (joinWords (ws ++ [word])) []
                (wc + 1) sc (by omega) ?_ (by simp)
              refine Or.inr ⟨ws ++ [word], by simp, ?_, hprop2, rfl⟩
              rw [List.length_append, hlen]
              simp

/-- C10 (confirmed).  Implicit all-or-nothing slicing: for every text, skip
and count ≥ 1, `getKWords` returns either a phrase of exactly `count`
non-empty, space-free words joined by single spaces, or the empty string —
never a partial phrase.  (A word is only collected once a space follows it,
and a partially collected result is dropped when the text runs out.) -/
theorem c10_all_or_nothing (text : List Char) (skip count : Nat) (hcount : 1 ≤ count) :
    getKWords text skip count = [] ∨
      ∃ ws : List (List Char), ws.length = count ∧
        (∀ w ∈ ws, w ≠ [] ∧ ∀ ch ∈ w, ch ≠ ' ') ∧
        getKWords text skip count = joinWords ws :=
  getKWordsGo_inv skip count text [] [] 0 0 (by omega) (Or.inl ⟨rfl, rfl⟩) (by simp)

/-- Witness for C10 at the spec's first slicer vector. -/
theorem c10_all_or_nothing_witness :
    1 ≤ 2 ∧ (getKWords (("a b c d e").toList) 2 2 = [] ∨
      ∃ ws : List (List Char), ws.length = 2 ∧
        (∀ w ∈ ws, w ≠ [] ∧ ∀ ch ∈ w, ch ≠ ' ') ∧
        getKWords (("a b c d e").toList) 2 2 = joinWords ws) :=
  ⟨by omega, c10_all_or_nothing (("a b c d e").toList) 2 2 (by omega)⟩



theorem genLoop_units (a : List (List Char)) (k : Nat) :
    ∀ (n : Nat) (phrase : List Char) (rs : List Nat),
      ∃ us : List (List Char), us.length = n ∧
        genLoop a k n phrase rs = (us.map (fun u => u ++ [' '])).flatten
  | 0, _, _ => ⟨[], rfl, rfl⟩
  | n + 1, phrase, rs => by
    simp only [genLoop]
    by_cases hp : phrase = []
    · rw [if_pos hp]
      obtain ⟨us, hlen, heq⟩ :=
        genLoop_units a k n (getRandomPhrase a k (rs.headD 0)) rs.tail
      refine ⟨getRandomPhrase a k (rs.headD 0) :: us, by simp [hlen], ?_⟩
      rw [List.map_cons, List.flatten_cons, heq]
      simp [List.append_assoc]
    · rw [if_neg hp]
      by_cases hL : phraseIndex a phrase = a.length
      · rw [if_pos hL]
        obtain ⟨us, hlen, heq⟩ :=
          genLoop_units a k n (getRandomPhrase a k (rs.headD 0)) rs.tail
        refine ⟨getRandomPhrase a k (rs.headD 0) :: us, by simp [hlen], ?_⟩
        rw [List.map_cons, List.flatten_cons, heq]
        simp [List.append_assoc]
      · rw [if_neg hL]
        obtain ⟨us, hlen, heq⟩ := genLoop_units a k n
          (getKWords (reservoirList (phrase ++ [' '])
            (a.drop (phraseIndex a phrase)) 0 [] rs).1 k k)
          (reservoirList (phrase ++ [' ']) (a.drop (phraseIndex a phrase)) 0 [] rs).2
        refine ⟨getKWords (reservoirList (phrase ++ [' '])
          (a.drop (phraseIndex a phrase)) 0 [] rs).1 k k :: us, by simp [hlen], ?_⟩
        rw [List.map_cons, List.flatten_cons, heq]
        simp [List.append_assoc]

/-- C9 (confirmed).  For every length ≥ 1, k ≥ 1 and non-empty suffix
array, the generator's loop runs exactly `length` iterations, appending
exactly one phrase-unit followed by a space per iteration (the output is
the concatenation of `length` units each suffixed by one space), it never
terminates early, and it completes with a `nil` error. -/
theorem c9_generator_loop (a : List (List Char)) (len k : Nat) (rs : List Nat)
    (ha : a ≠ []) (hlen : 1 ≤ len) (hk : 1 ≤ k) :
    (generateTextFromSuffixArray a len k rs).2 = Option.none ∧
    ∃ us : List (List Char), us.length = len ∧
      (generateTextFromSuffixArray a len k rs).1 =
        (us.map (fun u => u ++ [' '])).flatten :=
  ⟨rfl, genLoop_units a k len [] rs⟩

/-- Witness for C9 on the demonstration array with length 2, k 2. -/
theorem c9_generator_loop_witness :
    demoArray ≠ [] ∧ 1 ≤ 2 ∧
    ((generateTextFromSuffixArray demoArray 2 2 [0]).2 = Option.none ∧
    ∃ us : List (List Char), us.length = 2 ∧
      (generateTextFromSuffixArray demoArray 2 2 [0]).1 =
        (us.map (fun u => u ++ [' '])).flatten) :=
  ⟨by decide, by omega, c9_generator_loop demoArray 2 2 [0] (by decide) (by omega) (by omega)⟩

/-- C4 (amended).  The two not-found situations are handled differently:
when the locator returns an index equal to the array length, the generator
falls back to fresh-start sampling in that same step; when the locator
returns an in-range index whose matching run is empty, the step appends
only an empty unit (a lone space) and resets the phrase, so that the
fresh-start fallback happens only at the next iteration.  Neither case
surfaces an error to the caller. -/
theorem c4_notfound_amended (a : List (List Char)) (k n : Nat) (phrase : List Char)
    (rs : List Nat) (hp : phrase ≠ []) :
    (phraseIndex a phrase = a.length →
      genLoop a k (n + 1) phrase rs =
        getRandomPhrase a k (rs.headD 0) ++ ' ' ::
          genLoop a k n (getRandomPhrase a k (rs.headD 0)) rs.tail) ∧
    (phraseIndex a phrase < a.length →
      (phrase ++ [' ']).isPrefixOf (a.getD (phraseIndex a phrase) []) = false →
      genLoop a k (n + 1) phrase rs = ' ' :: genLoop a k n [] rs) ∧
    (generateTextFromSuffixArray a (n + 1) k rs).2 = Option.none := by
  refine ⟨?_, ?_, rfl⟩
  · intro hL
    simp only [genLoop, if_neg hp, if_pos hL]
  · intro hL hpre
    have hdrop : a.drop (phraseIndex a phrase) =
        a.getD (phraseIndex a phrase) [] :: a.drop (phraseIndex a phrase + 1) := by
      rw [List.drop_eq_getElem_cons hL, List.getD_eq_getElem a [] hL]
    have hres : reservoirList (phrase ++ [' '])
        (a.drop (phraseIndex a phrase)) 0 [] rs = ([], rs) := by
      rw [hdrop]
      simp only [reservoirList, hpre, Bool.false_eq_true, if_false]
    simp only [genLoop, if_neg hp, if_neg (Nat.ne_of_lt hL), hres]
    rfl

/-- C4 counterexample.  On the sorted suffix array of `"the  cat x"` (note
the double space) with k = 2, the phrase `"the cat"` gets an in-range lower
bound 3 whose run is empty.  With the same random stream `[2]`, the
empty-run step appends only `" "` — not a fresh 2-word phrase, while the
same-stream fresh-start treatment (the behaviour of the length = index
case) would have appended `"the cat "`.  The two not-found cases are not
treated identically, and the promised fresh k-word phrase is not appended
in that step. -/
theorem c4_counterexample :
    phraseIndex ((SortGo (Build ("the  cat x").toList).1).1) (("the cat").toList) = 3 ∧
    3 < ((SortGo (Build ("the  cat x").toList).1).1).length ∧
    ((("the cat").toList ++ [' ']).isPrefixOf
      (((SortGo (Build ("the  cat x").toList).1).1).getD 3 [])) = false ∧
    genLoop ((SortGo (Build ("the  cat x").toList).1).1) 2 1 (("the cat").toList) [2]
      = [' '] ∧
    getRandomPhrase ((SortGo (Build ("the  cat x").toList).1).1) 2 2 ++ [' ']
      = ("the cat ").toList ∧
    ([' '] : List Char) ≠ ("the cat ").toList := by decide

/-- Witness for C4 (amended) on the demonstration array with the non-empty
phrase `"the cat"`. -/
theorem c4_notfound_amended_witness :
    (("the cat").toList : List Char) ≠ [] ∧
    ((phraseIndex demoArray (("the cat").toList) = demoArray.length →
      genLoop demoArray 2 (1 + 1) (("the cat").toList) [0] =
        getRandomPhrase demoArray 2 (([0] : List Nat).headD 0) ++ ' ' ::
          genLoop demoArray 2 1 (getRandomPhrase demoArray 2 (([0] : List Nat).headD 0))
            ([0] : List Nat).tail) ∧
    (phraseIndex demoArray (("the cat").toList) < demoArray.length →
      ((("the cat").toList ++ [' ']).isPrefixOf
        (demoArray.getD (phraseIndex demoArray (("the cat").toList)) [])) = false →
      genLoop demoArray 2 (1 + 1) (("the cat").toList) [0] =
        ' ' :: genLoop demoArray 2 1 [] [0]) ∧
    (generateTextFromSuffixArray demoArray (1 + 1) 2 [0]).2 = Option.none) :=
  ⟨by decide, c4_notfound_amended demoArray 2 1 (("the cat").toList) [0] (by decide)⟩

theorem genLoop_empty_corpus (k : Nat) : ∀ (n : Nat) (rs : List Nat),
    genLoop [[]] k n [] rs = List.replicate n ' '
  | 0, _ => rfl
  | n + 1, rs => by
    have hfresh : getRandomPhrase [[]] k (rs.headD 0) = [] := by
      simp [getRandomPhrase, Nat.mod_one, getKWords, getKWordsGo]
    simp only [genLoop, reduceIte, hfresh, List.nil_append, List.replicate_succ]
    rw [genLoop_empty_corpus k n rs.tail]

/-- C5 counterexample.  No empty-corpus fail-fast exists: on the empty
corpus, `Build` returns a one-element array holding the empty suffix with a
`nil` error, `Sort` succeeds, and the generation pipeline also completes
with a `nil` error, producing three bare spaces for length 3 — nothing
reports an error or stops. -/
theorem c5_counterexample :
    (Build ("").toList).2 = Option.none ∧
    (Build ("").toList).1 = [[]] ∧
    (SortGo (Build ("").toList).1).2 = Option.none ∧
    (generateTextFromSuffixArray (SortGo (Build ("").toList).1).1 3 2 []).2
      = Option.none ∧
    (generateTextFromSuffixArray (SortGo (Build ("").toList).1).1 3 2 []).1
      = ("   ").toList := by decide

/-- C5 (amended).  For the empty corpus the pipeline does not fail: `Build`
returns the degenerate one-element array `[""]` and never an error (for any
corpus), `Sort` never errors, and generation over the degenerate array
completes error-free for every length, k and random stream, producing only
spaces. -/
theorem c5_empty_corpus_amended :
    (Build ("").toList).1 = [[]] ∧
    (∀ t : List Char, (Build t).2 = Option.none) ∧
    (∀ a : List (List Char), (SortGo a).2 = Option.none) ∧
    (∀ (n k : Nat) (rs : List Nat),
      generateTextFromSuffixArray [[]] n k rs = (List.replicate n ' ', Option.none)) := by
  refine ⟨rfl, fun _ => rfl, fun _ => rfl, fun n k rs => ?_⟩
  show (genLoop [[]] k n [] rs, Option.none) = _
  rw [genLoop_empty_corpus k n rs]

/-- C6 counterexample.  For the trailing-space corpus `"a b "` the empty
suffix sorts first, and fresh-start selection does choose it: with random
draw 0 the selected suffix `a.getD (0 % 3) = ""` is the empty suffix, and
the generation run emits a bare space.  There is no guard. -/
theorem c6_counterexample :
    (SortGo (Build ("a b ").toList).1).1 = [[], ("a b ").toList, ("b ").toList] ∧
    ((SortGo (Build ("a b ").toList).1).1).getD
      (0 % ((SortGo (Build ("a b ").toList).1).1).length) [] = [] ∧
    (generateTextFromSuffixArray (SortGo (Build ("a b ").toList).1).1 1 1 [0]).1
      = [' '] := by decide

/-- C6 (amended).  Continuation sampling indeed never selects the
empty-string suffix: every selection of the reservoir scan carries the
non-empty key `phrase + " "` as a prefix, so the scan's result is either
its untouched initial value `""` (nothing was selected) or a non-empty
suffix.  Fresh-start selection, however, can select the empty suffix
(`c6_counterexample`). -/
theorem c6_empty_suffix_amended (a : List (List Char)) (p : List Char) (L : Nat)
    (rs : List Nat) :
    (reservoirList (p ++ [' ']) (a.drop L) 0 [] rs).1 = [] ∨
      ((p ++ [' ']).isPrefixOf ((reservoirList (p ++ [' ']) (a.drop L) 0 [] rs).1)
          = true ∧
        (reservoirList (p ++ [' ']) (a.drop L) 0 [] rs).1 ≠ []) := by
  rcases reservoirList_sel (p ++ [' ']) (a.drop L) 0 [] rs with h | h
  · exact Or.inl h
  · refine Or.inr ⟨h, ?_⟩
    intro hcon
    rw [hcon, key_not_prefixOf_nil p] at h
    exact absurd h (by simp)

/-- C1 counterexample.  A continuation step after `"the cat"` is not always
`"sat on"` or `"ran"`: with the random stream `[0, 1]` the sampler holds the
suffix `"the cat ran"`, and extracting words `[2, 4)` from it yields the
empty string (the word `"ran"` ends the corpus without a trailing space and
is discarded), so the step returns `""`. -/
theorem c1_counterexample :
    continuationStep demoArray (("the cat").toList) 2 [0, 1] = [] ∧
    continuationStep demoArray (("the cat").toList) 2 [0, 1] ≠ ("sat on").toList ∧
    continuationStep demoArray (("the cat").toList) 2 [0, 1] ≠ ("ran").toList := by
  decide

/-- C1 (amended).  End-to-end continuation on the demonstration corpus with
k = 2: a continuation step seeded with `"the cat"` returns either
`"sat on"` (from the suffix `"the cat sat on …"`) or the empty string (from
the suffix `"the cat ran"`, whose extension is discarded for lack of a
trailing space), for every behaviour of the random source. -/
theorem c1_continuation_amended (rs : List Nat) :
    continuationStep demoArray (("the cat").toList) 2 rs = ("sat on").toList ∨
    continuationStep demoArray (("the cat").toList) 2 rs = [] := by
  have hL : phraseIndex demoArray (("the cat").toList) = 6 := by decide
  have hdrop : demoArray.drop 6 = [("the cat ran").toList,
      ("the cat sat on the mat the cat ran").toList,
      ("the mat the cat ran").toList] := by decide
  have hp6 : (("the cat").toList ++ [' ']).isPrefixOf (("the cat ran").toList)
      = true := by decide
  have hp7 : (("the cat").toList ++ [' ']).isPrefixOf
      (("the cat sat on the mat the cat ran").toList) = true := by decide
  have hp8 : (("the cat").toList ++ [' ']).isPrefixOf
      (("the mat the cat ran").toList) = false := by decide
  have hg0 : reservoirGuard (rs.headD 0) 0 = true := by
    simp [reservoirGuard, Nat.mod_one]
  unfold continuationStep
  rw [hL, hdrop]
  simp only [reservoirList, hp6, hp7, hp8, hg0, if_true, Bool.false_eq_true, if_false]
  by_cases hg1 : reservoirGuard (rs.tail.headD 0) 1 = true
  · rw [if_pos hg1]
    left
    decide
  · rw [if_neg hg1]
    right
    decide


end IrssiLog
